import Mathlib

/-!
Verification development for the EnglishLearningApp repository (src/app.py).

The embedding models:
* `WordData` and its methods `needs_review` (spaced-repetition due check) and
  `get_mastery_badge` (mastery band emoji), from src/app.py lines 64-106;
* `UserProfile` and `LearningEngine.calculate_streak`, lines 108-131 and 293-308;
* `LearningEngine.get_spaced_repetition_words` (filter + stable ascending sort by
  mastery + truncation), lines 277-281, and `update_word_mastery`, lines 283-291;
* `generate_quiz_questions`, lines 1041-1077, with the `random` module modelled by
  an explicit stream of naturals so theorems quantify over every possible
  behaviour of the random source.

Modelling conventions:
* `datetime` values are integers counting microseconds; subtracting two datetimes
  and taking `.days` is floor division by `usPerDay` (Python's `timedelta.days`
  floors), and `.date()` subtraction is the difference of the floor-divided day
  numbers.
* Python floats holding mastery levels and the deltas 0.2/0.1 are modelled as
  rationals; the float expression `review_count ** 1.3` is modelled by the exact
  real value: `floor (rc ^ 1.3)` is the greatest `n` with `n ^ 10 ≤ rc ^ 13`.
* `random.choice`, `random.sample` and `random.shuffle` consume naturals from the
  stream; an index is the drawn natural reduced mod the pool size, so every
  outcome the Python functions can produce corresponds to some stream.
-/

/-- Microseconds per day: `timedelta.days` is floor division by this. -/
def usPerDay : Int := 86400000000

/-- Calendar day number of a timestamp, as produced by `datetime.date()`
for a timeline measured from a midnight epoch. -/
def dateOf (t : Int) : Int := t.fdiv usPerDay

/-- Exact floor of `rc ** 1.3 = rc ^ (13/10)`: the greatest `n` with
`n ^ 10 ≤ rc ^ 13` (bounded by `rc * rc`, valid since `rc ^ 20 ≥ rc ^ 13`).
This models the source's `int(self.review_count ** 1.3)` exactly over ℝ. -/
def floorPow13Div10 (rc : Nat) : Nat :=
  Nat.findGreatest (fun n => n ^ 10 ≤ rc ^ 13) (rc * rc)

/-- `WordData` dataclass, src/app.py lines 64-77. -/
structure WordData where
  english : String
  hindi : String
  phonetic : String
  category : String
  difficulty : Int
  example_sentence : String
  mnemonic : String
  image_hint : String
  mastery_level : ℚ := 0
  last_reviewed : Option Int := none
  review_count : Nat := 0
deriving Repr, DecidableEq

/-- `WordData.needs_review`, src/app.py lines 79-93.  `datetime.now()` is passed
in as `now`; `if not self.last_reviewed` is the `none` test (a datetime object is
always truthy). -/
def WordData.needs_review (w : WordData) (now : Int) : Bool :=
  match w.last_reviewed with
  | none => true
  | some t =>
    let days_since : Int := (now - t).fdiv usPerDay
    let interval : Nat :=
      if w.review_count = 0 then 1
      else if w.review_count = 1 then 2
      else min (floorPow13Div10 w.review_count) 365
    decide ((interval : Int) ≤ days_since)

/-- The review interval as the spec's claim words it: 1 day for
`review_count = 0`, 2 days for `review_count = 1`, else
`min (floor (review_count ^ 1.3)) 365`. -/
def intervalDays_spec (rc : Nat) : Nat :=
  if rc = 0 then 1 else if rc = 1 then 2 else min (floorPow13Div10 rc) 365

/-- `isDue` as the spec's claim words it: true when `last_reviewed` is absent,
otherwise true exactly when `floor (now - last_reviewed, in days)` is at least
the interval. -/
def isDue_spec (w : WordData) (now : Int) : Bool :=
  match w.last_reviewed with
  | none => true
  | some t => decide ((intervalDays_spec w.review_count : Int) ≤ (now - t).fdiv usPerDay)

/-- `WordData.get_mastery_badge`, src/app.py lines 95-106. -/
def WordData.get_mastery_badge (w : WordData) : String :=
  if w.mastery_level ≥ 0.9 then "💎"
  else if w.mastery_level ≥ 0.7 then "🟢"
  else if w.mastery_level ≥ 0.5 then "🟡"
  else if w.mastery_level ≥ 0.3 then "🟠"
  else "🔴"

/-- `UserProfile` dataclass, src/app.py lines 108-119. -/
structure UserProfile where
  name : String
  total_words_learned : Nat := 0
  streak_days : Nat := 0
  last_session : Option Int := none
  preferred_difficulty : Int := 1
  auto_play_audio : Bool := false
  dark_mode : Bool := false
  learning_pace : String := "normal"
  daily_goal : Nat := 10
deriving Repr

/-- `LearningEngine.calculate_streak`, src/app.py lines 293-308. -/
def calculate_streak (p : UserProfile) (now : Int) : Nat :=
  match p.last_session with
  | none => 0
  | some t =>
    let days_diff : Int := dateOf now - dateOf t
    if days_diff = 0 then p.streak_days
    else if days_diff = 1 then p.streak_days + 1
    else 0

/-- The streak rule as the spec's claim words it: 0 when `last_session` is
absent; the unchanged `streak_days` at calendar-day difference 0; `streak_days + 1`
at difference exactly 1; 0 for any other difference (2 or more, or negative). -/
def calculate_streak_spec (p : UserProfile) (now : Int) : Nat :=
  match p.last_session with
  | none => 0
  | some t =>
    if dateOf now - dateOf t = 0 then p.streak_days
    else if dateOf now - dateOf t = 1 then p.streak_days + 1
    else 0

/-- Comparator used by the sort in `get_spaced_repetition_words`:
`key=lambda w: w.mastery_level`, ascending. -/
def masteryLe (a b : WordData) : Bool := decide (a.mastery_level ≤ b.mastery_level)

/-- The due words after the stable ascending sort by mastery and before
truncation; Python's stable `list.sort` is modelled by `List.mergeSort`. -/
def sortedDue (words : List WordData) (now : Int) : List WordData :=
  (words.filter (fun w => w.needs_review now)).mergeSort masteryLe

/-- `LearningEngine.get_spaced_repetition_words`, src/app.py lines 277-281:
filter the due words, sort ascending by `mastery_level` (stable), take `limit`. -/
def get_spaced_repetition_words (words : List WordData) (now : Int) (limit : Nat) : List WordData :=
  (sortedDue words now).take limit

/-- `LearningEngine.update_word_mastery`, src/app.py lines 283-291, as a pure
update returning the mutated record; `datetime.now()` is passed in as `now`. -/
def update_word_mastery (w : WordData) (correct : Bool) (now : Int) : WordData :=
  let w1 := { w with review_count := w.review_count + 1, last_reviewed := some now }
  if correct then { w1 with mastery_level := min 1 (w1.mastery_level + 0.2) }
  else { w1 with mastery_level := max 0 (w1.mastery_level - 0.1) }

/-- A finite sequence of `update_word_mastery` calls on one entry, each with its
outcome and time. -/
def updateMany (w : WordData) (calls : List (Bool × Int)) : WordData :=
  calls.foldl (fun acc c => update_word_mastery acc c.1 c.2) w

/-- The random source: a stream of naturals consumed left to right (0 once
exhausted).  Quantifying over all streams quantifies over all behaviours of
Python's `random`. -/
def Rng : Type := List Nat

/-- Draw one natural from the stream. -/
def rngNext : Rng → Nat × Rng
  | [] => (0, [])
  | r :: rs => (r, rs)

/-- `random.sample(pool, k)`: draw `k` elements without replacement, modelled as
repeatedly drawing an index (the next stream value mod the current pool size)
and removing that position.  The caller guarantees `k ≤ pool.length`; the
empty-pool branch is unreachable there. -/
def randSample {α : Type} : List α → Nat → Rng → List α × Rng
  | _, 0, g => ([], g)
  | [], _ + 1, g => ([], g)
  | a :: l, k + 1, g =>
    let i := (rngNext g).1 % (a :: l).length
    let x := (a :: l).get ⟨i, Nat.mod_lt _ (Nat.succ_pos l.length)⟩
    let res := randSample ((a :: l).eraseIdx i) k (rngNext g).2
    (x :: res.1, res.2)

/-- `random.shuffle`: a full draw without replacement, yielding an arbitrary
permutation of the list depending on the stream. -/
def randShuffle {α : Type} (l : List α) (g : Rng) : List α × Rng :=
  randSample l l.length g

/-- One generated quiz question, the dict at src/app.py lines 1071-1075. -/
structure QuizQuestion where
  word : WordData
  correct : String
  options : List String
deriving Repr, DecidableEq

/-- The fixed filler distractors `["गलत", "अनुवाद", "शब्द"]` of src/app.py
line 1064 (the `[:3]` slice of a 3-element list is the list itself). -/
def quizFillers : List String := ["गलत", "अनुवाद", "शब्द"]

/-- The `wrong_pool` comprehension of src/app.py line 1060: the `hindi` values
of all words whose `hindi` differs from the correct answer. -/
def wrongPool (words : List WordData) (correct : String) : List String :=
  (words.filter (fun w => w.hindi != correct)).map (fun w => w.hindi)

/-- The `for _ in range(min(num_questions, len(words)))` loop of
`generate_quiz_questions`, src/app.py lines 1049-1075.  `used` is the
`used_words` set of english keys; `random.choice(available_words)` draws the
next stream value mod the pool size. -/
def quizLoop (words : List WordData) : Nat → List String → Rng → List QuizQuestion
  | 0, _, _ => []
  | n + 1, used, g =>
    match words.filter (fun w => !(used.contains w.english)) with
    | [] => []
    | a :: as =>
      let word := (a :: as).get
        ⟨(rngNext g).1 % (a :: as).length, Nat.mod_lt _ (Nat.succ_pos as.length)⟩
      let correct := word.hindi
      let wrong_pool := wrongPool words correct
      let wr : List String × Rng :=
        if wrong_pool.length < 3 then (quizFillers, (rngNext g).2)
        else randSample wrong_pool 3 (rngNext g).2
      let opts := randShuffle (correct :: wr.1) wr.2
      { word := word, correct := correct, options := opts.1 }
        :: quizLoop words n (word.english :: used) opts.2

/-- `generate_quiz_questions`, src/app.py lines 1041-1077. -/
def generate_quiz_questions (words : List WordData) (num_questions : Nat) (g : Rng) :
    List QuizQuestion :=
  if words.length < 4 then []
  else quizLoop words (min num_questions words.length) [] g

/-- A word with all presentational fields fixed and mastery defaults, for
concrete instances. -/
def mkW (e h : String) : WordData :=
  { english := e, hindi := h, phonetic := "", category := "", difficulty := 1,
    example_sentence := "", mnemonic := "", image_hint := "" }

/-- Four entries sharing one english key: the quiz loop exhausts its pool after
one question. -/
def dupEnglishWords : List WordData :=
  [mkW "cat" "p", mkW "cat" "q", mkW "cat" "r", mkW "cat" "s"]

/-- Four entries whose wrong-answer pool is three copies of one value. -/
def dupHindiWords : List WordData :=
  [mkW "e1" "A", mkW "e2" "B", mkW "e3" "B", mkW "e4" "B"]

/-- Four entries where exactly one genuine distractor value exists. -/
def oneDistractorWords : List WordData :=
  [mkW "e1" "A", mkW "e2" "A", mkW "e3" "A", mkW "e4" "B"]

/-- Four entries with pairwise distinct english and hindi values. -/
def distinct4Words : List WordData :=
  [mkW "w1" "h1", mkW "w2" "h2", mkW "w3" "h3", mkW "w4" "h4"]

/-- A never-reviewed word with a given mastery level. -/
def mkWM (e h : String) (m : ℚ) : WordData :=
  { mkW e h with mastery_level := m }

/-- The spec's ordering example: A(0.2), B(0.5), C(0.1), all due. -/
def exOrderWords : List WordData :=
  [mkWM "A" "a" 0.2, mkWM "B" "b" 0.5, mkWM "C" "c" 0.1]
theorem updateMany_cons (w : WordData) (c : Bool × Int) (cs : List (Bool × Int)) :
    updateMany w (c :: cs) = updateMany (update_word_mastery w c.1 c.2) cs := rfl

theorem update_review_count (w : WordData) (c : Bool) (now : Int) :
    (update_word_mastery w c now).review_count = w.review_count + 1 := by
  cases c <;> simp [update_word_mastery]

theorem update_mastery_bounds (w : WordData) (c : Bool) (now : Int)
    (h0 : 0 ≤ w.mastery_level) (h1 : w.mastery_level ≤ 1) :
    0 ≤ (update_word_mastery w c now).mastery_level ∧
      (update_word_mastery w c now).mastery_level ≤ 1 := by
  cases c <;> simp [update_word_mastery] <;> linarith

theorem updateMany_mastery_bounds (calls : List (Bool × Int)) :
    ∀ (w : WordData), 0 ≤ w.mastery_level → w.mastery_level ≤ 1 →
      0 ≤ (updateMany w calls).mastery_level ∧ (updateMany w calls).mastery_level ≤ 1 := by
  induction calls with
  | nil => intro w h0 h1; exact ⟨h0, h1⟩
  | cons c cs ih =>
    intro w h0 h1
    rw [updateMany_cons]
    exact ih _ (update_mastery_bounds w c.1 c.2 h0 h1).1 (update_mastery_bounds w c.1 c.2 h0 h1).2

/-- C1: `needs_review` agrees pointwise with the spec's staged-interval due rule,
and an entry reviewed exactly one day ago is due at `review_count = 0` and not
due at `review_count = 1`. -/
theorem C1_needs_review_matches_spec :
    (∀ (w : WordData) (now : Int), w.needs_review now = isDue_spec w now) ∧
    (∀ (w : WordData) (t : Int), w.last_reviewed = some t → w.review_count = 0 →
      w.needs_review (t + usPerDay) = true) ∧
    (∀ (w : WordData) (t : Int), w.last_reviewed = some t → w.review_count = 1 →
      w.needs_review (t + usPerDay) = false) := by
  refine ⟨?_, ?_, ?_⟩
  · intro w now
    unfold WordData.needs_review isDue_spec intervalDays_spec
    cases w.last_reviewed <;> rfl
  · intro w t hlast hrc
    simp only [WordData.needs_review, hlast, hrc, add_sub_cancel_left]
    norm_num
    decide
  · intro w t hlast hrc
    simp only [WordData.needs_review, hlast, hrc, add_sub_cancel_left]
    norm_num
    decide

theorem C1_witness :
    ({ mkW "w" "h" with last_reviewed := some 0 } : WordData).needs_review usPerDay = true :=
  C1_needs_review_matches_spec.2.1 _ 0 rfl rfl

/-- C2: one update increments `review_count` by exactly 1, stamps `last_reviewed`
with `now`, and moves mastery by the fixed pair of deltas (0.2 up clamped at 1,
0.1 down clamped at 0); consequently N calls add exactly N to `review_count`. -/
theorem C2_update_word_mastery_effects :
    ∃ dc dw : ℚ,
      (∀ (w : WordData) (c : Bool) (now : Int),
        (update_word_mastery w c now).review_count = w.review_count + 1 ∧
        (update_word_mastery w c now).last_reviewed = some now ∧
        (update_word_mastery w c now).mastery_level =
          (if c then min 1 (w.mastery_level + dc) else max 0 (w.mastery_level - dw))) ∧
      (∀ (w : WordData) (calls : List (Bool × Int)),
        (updateMany w calls).review_count = w.review_count + calls.length) := by
  refine ⟨0.2, 0.1, ?_, ?_⟩
  · intro w c now
    cases c <;> simp [update_word_mastery]
  · intro w calls
    induction calls generalizing w with
    | nil => simp [updateMany]
    | cons c cs ih =>
      rw [updateMany_cons, ih, update_review_count, List.length_cons]
      omega

/-- C3: starting from mastery in [0,1], every finite sequence of
`update_word_mastery` calls keeps mastery in [0,1] after every call. -/
theorem C3_mastery_clamped :
    ∀ (w : WordData), 0 ≤ w.mastery_level → w.mastery_level ≤ 1 →
      ∀ calls : List (Bool × Int),
        0 ≤ (updateMany w calls).mastery_level ∧ (updateMany w calls).mastery_level ≤ 1 :=
  fun w h0 h1 calls => updateMany_mastery_bounds calls w h0 h1

theorem C3_witness :
    0 ≤ (updateMany (mkW "w" "h") [(true, 0), (false, 1)]).mastery_level ∧
      (updateMany (mkW "w" "h") [(true, 0), (false, 1)]).mastery_level ≤ 1 :=
  C3_mastery_clamped (mkW "w" "h") (by norm_num [mkW]) (by norm_num [mkW]) _

/-- C9: `update_word_mastery` changes only `mastery_level`, `last_reviewed` and
`review_count`; all presentational fields pass through unchanged. -/
theorem C9_update_frame :
    ∀ (w : WordData) (c : Bool) (now : Int),
      (update_word_mastery w c now).english = w.english ∧
      (update_word_mastery w c now).hindi = w.hindi ∧
      (update_word_mastery w c now).phonetic = w.phonetic ∧
      (update_word_mastery w c now).category = w.category ∧
      (update_word_mastery w c now).difficulty = w.difficulty ∧
      (update_word_mastery w c now).example_sentence = w.example_sentence ∧
      (update_word_mastery w c now).mnemonic = w.mnemonic ∧
      (update_word_mastery w c now).image_hint = w.image_hint := by
  intro w c now
  cases c <;> simp [update_word_mastery]

/-- C10: `calculate_streak` matches the claimed day-difference rule: 0 when
`last_session` is absent, unchanged streak at difference 0, incremented at
difference exactly 1, reset to 0 otherwise (including negative differences). -/
theorem C10_calculate_streak_cases :
    (∀ (p : UserProfile) (now : Int), calculate_streak p now = calculate_streak_spec p now) ∧
    (∀ (p : UserProfile) (now : Int), p.last_session = none → calculate_streak p now = 0) ∧
    (∀ (p : UserProfile) (now t : Int), p.last_session = some t →
      (dateOf now - dateOf t = 0 → calculate_streak p now = p.streak_days) ∧
      (dateOf now - dateOf t = 1 → calculate_streak p now = p.streak_days + 1) ∧
      (dateOf now - dateOf t ≠ 0 → dateOf now - dateOf t ≠ 1 → calculate_streak p now = 0)) := by
  refine ⟨?_, ?_, ?_⟩
  · intro p now
    unfold calculate_streak calculate_streak_spec
    cases p.last_session <;> rfl
  · intro p now h
    simp [calculate_streak, h]
  · intro p now t h
    refine ⟨?_, ?_, ?_⟩
    · intro hd; simp [calculate_streak, h, hd]
    · intro hd; simp [calculate_streak, h, hd]
    · intro hd0 hd1; simp [calculate_streak, h, hd0, hd1]

theorem C10_witness :
    calculate_streak { name := "u", streak_days := 3, last_session := some 0 } usPerDay = 3 + 1 :=
  ((C10_calculate_streak_cases.2.2 _ usPerDay 0 rfl).2.1 (by decide))
theorem masteryLe_trans : ∀ a b c : WordData, masteryLe a b = true → masteryLe b c = true →
    masteryLe a c = true := by
  intro a b c hab hbc
  simp only [masteryLe, decide_eq_true_eq] at *
  exact le_trans hab hbc

theorem masteryLe_total : ∀ a b : WordData, (masteryLe a b || masteryLe b a) = true := by
  intro a b
  simp only [masteryLe, Bool.or_eq_true, decide_eq_true_eq]
  exact le_total _ _

theorem sortedDue_perm (words : List WordData) (now : Int) :
    (sortedDue words now).Perm (words.filter (fun w => w.needs_review now)) :=
  List.mergeSort_perm _ masteryLe

theorem sortedDue_pairwise (words : List WordData) (now : Int) :
    (sortedDue words now).Pairwise (fun a b => a.mastery_level ≤ b.mastery_level) := by
  have h := @List.sorted_mergeSort WordData masteryLe masteryLe_trans masteryLe_total
      (words.filter (fun w => w.needs_review now))
  exact h.imp (by intro a b hab; simpa [masteryLe] using hab)

/-- C4: `get_spaced_repetition_words` truncates the stable ascending-by-mastery
sort of exactly the due entries: members are due input entries, the output is
sorted ascending by mastery, has length `min limit (number due)`, consists of
the lowest-mastery due entries, is a permutation of all due entries when they
fit in `limit`, is empty when nothing is due, and ties keep input order. -/
theorem C4_select_due_ordered_truncated :
    ∀ (words : List WordData) (now : Int) (limit : Nat),
      get_spaced_repetition_words words now limit = (sortedDue words now).take limit ∧
      (∀ a ∈ get_spaced_repetition_words words now limit,
        a ∈ words ∧ a.needs_review now = true) ∧
      (get_spaced_repetition_words words now limit).Pairwise
        (fun a b => a.mastery_level ≤ b.mastery_level) ∧
      (get_spaced_repetition_words words now limit).length =
        min limit (words.filter (fun w => w.needs_review now)).length ∧
      ((words.filter (fun w => w.needs_review now)).length ≤ limit →
        (get_spaced_repetition_words words now limit).Perm
          (words.filter (fun w => w.needs_review now))) ∧
      (words.filter (fun w => w.needs_review now) = [] →
        get_spaced_repetition_words words now limit = []) ∧
      (∀ b ∈ words, b.needs_review now = true →
        b ∉ get_spaced_repetition_words words now limit →
        ∀ a ∈ get_spaced_repetition_words words now limit,
          a.mastery_level ≤ b.mastery_level) ∧
      (∀ a b : WordData, [a, b].Sublist (words.filter (fun w => w.needs_review now)) →
        a.mastery_level ≤ b.mastery_level → [a, b].Sublist (sortedDue words now)) := by
  intro words now limit
  have hperm := sortedDue_perm words now
  have hsorted := sortedDue_pairwise words now
  refine ⟨rfl, ?_, ?_, ?_, ?_, ?_, ?_, ?_⟩
  · intro a ha
    have has : a ∈ sortedDue words now := List.mem_of_mem_take ha
    exact List.mem_filter.mp (hperm.mem_iff.mp has)
  · exact List.Pairwise.sublist (List.take_sublist _ _) hsorted
  · show ((sortedDue words now).take limit).length = _
    rw [List.length_take, hperm.length_eq]
  · intro hle
    show ((sortedDue words now).take limit).Perm _
    rw [List.take_of_length_le (by rw [hperm.length_eq]; exact hle)]
    exact hperm
  · intro hnil
    show ((sortedDue words now).take limit) = []
    rw [sortedDue, hnil]
    simp [List.take_nil]
  · intro b hbw hbdue hbnot a ha
    have hbf : b ∈ words.filter (fun w => w.needs_review now) :=
      List.mem_filter.mpr ⟨hbw, hbdue⟩
    have hbs : b ∈ sortedDue words now := hperm.mem_iff.mpr hbf
    have hsplit := List.take_append_drop limit (sortedDue words now)
    have hbapp : b ∈ (sortedDue words now).take limit ++ (sortedDue words now).drop limit := by
      rw [hsplit]; exact hbs
    have hbdrop : b ∈ (sortedDue words now).drop limit := by
      rcases List.mem_append.mp hbapp with h | h
      · exact absurd h hbnot
      · exact h
    have hpw := hsorted
    rw [← hsplit] at hpw
    exact (List.pairwise_append.mp hpw).2.2 a ha b hbdrop
  · intro a b hab hle
    exact List.sublist_mergeSort masteryLe_trans masteryLe_total
      (by simp [List.pairwise_cons, masteryLe, hle]) hab

theorem C4_witness :
    (get_spaced_repetition_words exOrderWords 0 10).Perm
      (exOrderWords.filter (fun w => w.needs_review 0)) :=
  (C4_select_due_ordered_truncated exOrderWords 0 10).2.2.2.2.1 (by decide)
theorem perm_get_cons_eraseIdx {α : Type} :
    ∀ (l : List α) (i : Nat) (h : i < l.length), l.Perm (l.get ⟨i, h⟩ :: l.eraseIdx i) := by
  intro l
  induction l with
  | nil => intro i h; exact absurd h (Nat.not_lt_zero i)
  | cons a t ih =>
    intro i h
    cases i with
    | zero => simp
    | succ j =>
      have hj : j < t.length := Nat.lt_of_succ_lt_succ h
      have h1 : (a :: t).Perm (a :: (t.get ⟨j, hj⟩ :: t.eraseIdx j)) := (ih j hj).cons a
      have h2 : (a :: (t.get ⟨j, hj⟩ :: t.eraseIdx j)).Perm
          (t.get ⟨j, hj⟩ :: a :: t.eraseIdx j) := List.Perm.swap _ _ _
      exact h1.trans h2

theorem randSample_subperm {α : Type} :
    ∀ (k : Nat) (l : List α) (g : Rng), (randSample l k g).1.Subperm l := by
  intro k
  induction k with
  | zero => intro l g; simp [randSample]
  | succ k ih =>
    intro l g
    cases l with
    | nil => simp [randSample]
    | cons a t =>
      simp only [randSample]
      have hperm := perm_get_cons_eraseIdx (a :: t)
        ((rngNext g).1 % (a :: t).length) (Nat.mod_lt _ (Nat.succ_pos t.length))
      refine List.Subperm.trans ?_ hperm.symm.subperm
      exact (List.subperm_cons _).mpr (ih _ _)

theorem randSample_length {α : Type} :
    ∀ (k : Nat) (l : List α) (g : Rng), (randSample l k g).1.length = min k l.length := by
  intro k
  induction k with
  | zero => intro l g; simp [randSample]
  | succ k ih =>
    intro l g
    cases l with
    | nil => simp [randSample]
    | cons a t =>
      simp only [randSample]
      rw [List.length_cons, ih, List.length_eraseIdx,
        if_pos (Nat.mod_lt _ (Nat.succ_pos t.length) :
          (rngNext g).1 % (a :: t).length < (a :: t).length)]
      simp only [List.length_cons, Nat.add_sub_cancel]
      rw [Nat.succ_min_succ]

theorem randSample_nodup {α : Type} :
    ∀ (k : Nat) (l : List α) (g : Rng), l.Nodup → (randSample l k g).1.Nodup := by
  intro k
  induction k with
  | zero => intro l g _; simp [randSample]
  | succ k ih =>
    intro l g hn
    cases l with
    | nil => simp [randSample]
    | cons a t =>
      simp only [randSample]
      have hperm := perm_get_cons_eraseIdx (a :: t)
        ((rngNext g).1 % (a :: t).length) (Nat.mod_lt _ (Nat.succ_pos t.length))
      have hcons := (hperm.nodup_iff).mp hn
      rw [List.nodup_cons] at hcons ⊢
      refine ⟨fun hx => hcons.1 ?_, ih _ _ hcons.2⟩
      exact (randSample_subperm k _ _).subset hx

theorem randShuffle_perm {α : Type} (l : List α) (g : Rng) : (randShuffle l g).1.Perm l := by
  refine (randSample_subperm l.length l g).perm_of_length_le ?_
  rw [randSample_length]
  simp

theorem randSample_mem {α : Type} {k : Nat} {l : List α} {g : Rng} {y : α}
    (hy : y ∈ (randSample l k g).1) : y ∈ l :=
  (randSample_subperm k l g).subset hy
theorem filter_key_ne_length (f : WordData → String) (v : String) :
    ∀ l : List WordData, (l.map f).Nodup → (∃ w ∈ l, f w = v) →
      (l.filter (fun w => f w != v)).length + 1 = l.length := by
  intro l
  induction l with
  | nil => intro _ h; exact absurd h (by simp)
  | cons a t ih =>
    intro hn hw
    rw [List.map_cons, List.nodup_cons] at hn
    by_cases hav : f a = v
    · have hfilter : t.filter (fun w => f w != v) = t := by
        apply List.filter_eq_self.mpr
        intro w hwt
        rw [bne_iff_ne, ne_eq]
        intro hWv
        exact hn.1 (hav ▸ hWv ▸ List.mem_map_of_mem f hwt)
      rw [List.filter_cons_of_neg (by simp [hav]), hfilter, List.length_cons]
    · rcases hw with ⟨w, hwmem, hwv⟩
      rcases List.mem_cons.mp hwmem with rfl | hwt
      · exact absurd hwv hav
      · rw [List.filter_cons_of_pos (by simp [hav]), List.length_cons]
        have := ih hn.2 ⟨w, hwt, hwv⟩
        simp only [List.length_cons]
        omega

theorem filter_english_ne_length (v : String) (l : List WordData)
    (hn : (l.map (fun w => w.english)).Nodup) (hw : ∃ w ∈ l, w.english = v) :
    (l.filter (fun w => w.english != v)).length + 1 = l.length :=
  filter_key_ne_length (fun w => w.english) v l hn hw

theorem filter_hindi_ne_length (v : String) (l : List WordData)
    (hn : (l.map (fun w => w.hindi)).Nodup) (hw : ∃ w ∈ l, w.hindi = v) :
    (l.filter (fun w => w.hindi != v)).length + 1 = l.length :=
  filter_key_ne_length (fun w => w.hindi) v l hn hw

theorem map_filter_sublist_nodup {α β : Type} (f : α → β) (p : α → Bool) (l : List α)
    (hn : (l.map f).Nodup) : ((l.filter p).map f).Nodup :=
  List.Nodup.sublist (List.Sublist.map f (List.filter_sublist l)) hn

theorem filter_contains_cons (words : List WordData) (used : List String) (e : String) :
    words.filter (fun w => !((e :: used).contains w.english)) =
      (words.filter (fun w => !(used.contains w.english))).filter
        (fun w => w.english != e) := by
  rw [List.filter_filter]
  apply List.filter_congr
  intro w _
  simp only [List.contains_cons, Bool.not_or, bne, beq_eq_decide]

theorem quizLoop_mem_not_used (words : List WordData) :
    ∀ (n : Nat) (used : List String) (g : Rng) (q : QuizQuestion),
      q ∈ quizLoop words n used g → used.contains q.word.english = false := by
  intro n
  induction n with
  | zero => intro used g q hq; simp [quizLoop] at hq
  | succ n ih =>
    intro used g q hq
    simp only [quizLoop] at hq
    split at hq
    · simp at hq
    · rename_i a as heq
      rcases List.mem_cons.mp hq with rfl | hqt
      · have hmem : (a :: as).get ⟨(rngNext g).1 % (a :: as).length,
            Nat.mod_lt _ (Nat.succ_pos as.length)⟩ ∈ a :: as := List.get_mem _ _ _
        have hmem' : (a :: as).get ⟨(rngNext g).1 % (a :: as).length,
            Nat.mod_lt _ (Nat.succ_pos as.length)⟩ ∈
              words.filter (fun w => !(used.contains w.english)) := by
          rw [heq]; exact hmem
        have hfp := (List.mem_filter.mp hmem').2
        rw [Bool.not_eq_true'] at hfp
        exact hfp
      · have hrec := ih _ _ q hqt
        rw [List.contains_cons] at hrec
        exact (Bool.or_eq_false_iff.mp hrec).2

theorem quizLoop_english_nodup (words : List WordData) :
    ∀ (n : Nat) (used : List String) (g : Rng),
      ((quizLoop words n used g).map (fun q => q.word.english)).Nodup := by
  intro n
  induction n with
  | zero => intro used g; simp [quizLoop]
  | succ n ih =>
    intro used g
    simp only [quizLoop]
    split
    · simp
    · rename_i a as heq
      rw [List.map_cons, List.nodup_cons]
      refine ⟨?_, ih _ _⟩
      intro hmem
      rcases List.mem_map.mp hmem with ⟨q, hq, hqe⟩
      have hnu := quizLoop_mem_not_used words n _ _ q hq
      rw [List.contains_cons] at hnu
      simp [hqe] at hnu

theorem quizLoop_length (words : List WordData)
    (hn : (words.map (fun w => w.english)).Nodup) :
    ∀ (n : Nat) (used : List String) (g : Rng),
      (quizLoop words n used g).length =
        min n (words.filter (fun w => !(used.contains w.english))).length := by
  intro n
  induction n with
  | zero => intro used g; simp [quizLoop]
  | succ n ih =>
    intro used g
    simp only [quizLoop]
    split
    · rename_i heq; rw [heq]; simp
    · rename_i a as heq
      rw [List.length_cons, ih, filter_contains_cons, heq]
      have hnodup' : ((a :: as).map (fun w => w.english)).Nodup := by
        rw [← heq]; exact map_filter_sublist_nodup _ _ _ hn
      have hWmem : (a :: as).get ⟨(rngNext g).1 % (a :: as).length,
          Nat.mod_lt _ (Nat.succ_pos as.length)⟩ ∈ a :: as := List.get_mem _ _ _
      have hcount := filter_english_ne_length _ (a :: as) hnodup' ⟨_, hWmem, rfl⟩
      omega
theorem quizLoop_shape (words : List WordData) :
    ∀ (n : Nat) (used : List String) (g : Rng) (q : QuizQuestion),
      q ∈ quizLoop words n used g →
      q.word ∈ words ∧ q.correct = q.word.hindi ∧
      ∃ wo : List String,
        q.options.Perm (q.correct :: wo) ∧
        ((wrongPool words q.correct).length < 3 → wo = quizFillers) ∧
        (3 ≤ (wrongPool words q.correct).length →
          ∃ g2 : Rng, wo = (randSample (wrongPool words q.correct) 3 g2).1) := by
  intro n
  induction n with
  | zero => intro used g q hq; simp [quizLoop] at hq
  | succ n ih =>
    intro used g q hq
    simp only [quizLoop] at hq
    split at hq
    · simp at hq
    · rename_i a as heq
      rcases List.mem_cons.mp hq with rfl | hqt
      · refine ⟨?_, rfl, ?_⟩
        · have hmem : (a :: as).get ⟨(rngNext g).1 % (a :: as).length,
              Nat.mod_lt _ (Nat.succ_pos as.length)⟩ ∈ a :: as := List.get_mem _ _ _
          have hmem' : (a :: as).get ⟨(rngNext g).1 % (a :: as).length,
              Nat.mod_lt _ (Nat.succ_pos as.length)⟩ ∈
                words.filter (fun w => !(used.contains w.english)) := by
            rw [heq]; exact hmem
          exact (List.mem_filter.mp hmem').1
        · refine ⟨_, randShuffle_perm _ _, fun hlen => ?_, fun hlen => ?_⟩
          · rw [if_pos hlen]
          · exact ⟨(rngNext g).2, by rw [if_neg (Nat.not_lt.mpr hlen)]⟩
      · exact ih _ _ q hqt
theorem wrongPool_mem_ne {words : List WordData} {v y : String}
    (hy : y ∈ wrongPool words v) : y ≠ v := by
  rw [wrongPool] at hy
  rcases List.mem_map.mp hy with ⟨w, hwmem, rfl⟩
  have hp := (List.mem_filter.mp hwmem).2
  rwa [bne_iff_ne] at hp

/-- C5 counterexample: a pool of 4 entries sharing one english key makes
`generate_quiz_questions(words, 10)` return 1 question, not
`min(10, len(words)) = 4`: marking an english key as used removes every entry
sharing it from the pool. -/
theorem C5_counterexample :
    ¬ ((generate_quiz_questions dupEnglishWords 10 []).length =
        min 10 dupEnglishWords.length) := by
  decide

/-- C5 (amended): the generator never errors; with fewer than 4 entries it
returns the empty list, and otherwise, when the entries' english keys are
pairwise distinct, it returns exactly `min num (pool size)` questions whose
referenced entries have pairwise distinct english keys — for every behaviour of
the random source. -/
theorem C5_quiz_count_distinct :
    ∀ (words : List WordData) (num : Nat) (g : Rng),
      (words.length < 4 → generate_quiz_questions words num g = []) ∧
      (4 ≤ words.length → (words.map (fun w => w.english)).Nodup →
        (generate_quiz_questions words num g).length = min num words.length ∧
        ((generate_quiz_questions words num g).map (fun q => q.word.english)).Nodup) := by
  intro words num g
  constructor
  · intro h4
    rw [generate_quiz_questions, if_pos h4]
  · intro h4 hn
    rw [generate_quiz_questions, if_neg (Nat.not_lt.mpr h4)]
    constructor
    · rw [quizLoop_length words hn]
      have hfull : words.filter (fun w => !(([] : List String).contains w.english)) = words :=
        List.filter_eq_self.mpr (fun a _ => rfl)
      rw [hfull, min_assoc, min_self]
    · exact quizLoop_english_nodup words _ _ _

theorem C5_witness :
    (generate_quiz_questions distinct4Words 10 []).length = min 10 distinct4Words.length ∧
      ((generate_quiz_questions distinct4Words 10 []).map (fun q => q.word.english)).Nodup :=
  (C5_quiz_count_distinct distinct4Words 10 []).2 (by decide) (by decide)

/-- C6 counterexample: with duplicated hindi values in the pool,
`random.sample` draws positions, not distinct values, so a question's options
can repeat a value: on `dupHindiWords` with the all-zeros stream the options
are A/B/B/B. -/
theorem C6_counterexample :
    ¬ ∀ q ∈ generate_quiz_questions dupHindiWords 1 [], q.options.Nodup := by
  decide

/-- C6 (amended): provided the pool's hindi values are pairwise distinct, every
generated question has exactly 4 pairwise-distinct options, exactly one of them
equal to the correct answer (the entry's hindi), and every other option drawn
from the hindi values of entries whose hindi differs from the correct answer. -/
theorem C6_options_distinct :
    ∀ (words : List WordData) (num : Nat) (g : Rng) (q : QuizQuestion),
      (words.map (fun w => w.hindi)).Nodup →
      q ∈ generate_quiz_questions words num g →
      q.word ∈ words ∧ q.correct = q.word.hindi ∧
      q.options.length = 4 ∧ q.options.Nodup ∧
      q.options.count q.correct = 1 ∧
      (∀ o ∈ q.options, o ≠ q.correct → o ∈ wrongPool words q.correct) := by
  intro words num g q hn hq
  by_cases h4 : words.length < 4
  · rw [generate_quiz_questions, if_pos h4] at hq
    simp at hq
  rw [generate_quiz_questions, if_neg h4] at hq
  obtain ⟨hw, hc, wo, hperm, hsmall, hbig⟩ := quizLoop_shape words _ _ _ q hq
  have hcount : (wrongPool words q.correct).length + 1 = words.length := by
    rw [wrongPool, List.length_map]
    exact filter_hindi_ne_length q.correct words hn ⟨q.word, hw, hc.symm⟩
  have h4' : 4 ≤ words.length := Nat.not_lt.mp h4
  have h3 : 3 ≤ (wrongPool words q.correct).length := by omega
  obtain ⟨g2, rfl⟩ := hbig h3
  have hpnodup : (wrongPool words q.correct).Nodup := by
    rw [wrongPool]
    exact map_filter_sublist_nodup (fun w => w.hindi) _ words hn
  have hwonodup := randSample_nodup 3 (wrongPool words q.correct) g2 hpnodup
  have hnotmem : q.correct ∉ (randSample (wrongPool words q.correct) 3 g2).1 := by
    intro hmem
    exact wrongPool_mem_ne (randSample_mem hmem) rfl
  refine ⟨hw, hc, ?_, ?_, ?_, ?_⟩
  · rw [hperm.length_eq, List.length_cons, randSample_length, Nat.min_eq_left h3]
  · exact hperm.nodup_iff.mpr (List.nodup_cons.mpr ⟨hnotmem, hwonodup⟩)
  · rw [hperm.count_eq, List.count_cons_self, List.count_eq_zero.mpr hnotmem]
  · intro o ho hne
    rcases List.mem_cons.mp (hperm.subset ho) with rfl | hwo
    · exact absurd rfl hne
    · exact randSample_mem hwo

theorem C6_witness :
    let q : QuizQuestion := ⟨mkW "w1" "h1", "h1", ["h1", "h2", "h3", "h4"]⟩
    q.word ∈ distinct4Words ∧ q.correct = q.word.hindi ∧
      q.options.length = 4 ∧ q.options.Nodup ∧
      q.options.count q.correct = 1 ∧
      (∀ o ∈ q.options, o ≠ q.correct → o ∈ wrongPool distinct4Words q.correct) :=
  C6_options_distinct distinct4Words 1 [] _ (by decide) (by decide)

/-- C7 counterexample: `oneDistractorWords` has exactly one genuine wrong value
("B"); the produced options are the correct answer plus the three fixed fillers
and do not keep "B", contradicting the claim that genuine distractors are
kept. -/
theorem C7_counterexample :
    (generate_quiz_questions oneDistractorWords 1 []).map (fun q => q.options) =
        [["A", "गलत", "अनुवाद", "शब्द"]] ∧
      "B" ∉ (["A", "गलत", "अनुवाद", "शब्द"] : List String) :=
  ⟨rfl, by decide⟩

/-- C7 (amended): every generated question presents exactly 4 options; when the
pool of wrong hindi values (counted with multiplicity, not distinct values) has
fewer than 3 elements, the 3 distractors are exactly the fixed fillers
गलत/अनुवाद/शब्द — genuine distractors are discarded, not kept. -/
theorem C7_filler_padding :
    ∀ (words : List WordData) (num : Nat) (g : Rng) (q : QuizQuestion),
      q ∈ generate_quiz_questions words num g →
      q.options.length = 4 ∧
      ((wrongPool words q.correct).length < 3 →
        q.options.Perm (q.correct :: quizFillers)) := by
  intro words num g q hq
  by_cases h4 : words.length < 4
  · rw [generate_quiz_questions, if_pos h4] at hq
    simp at hq
  rw [generate_quiz_questions, if_neg h4] at hq
  obtain ⟨hw, hc, wo, hperm, hsmall, hbig⟩ := quizLoop_shape words _ _ _ q hq
  constructor
  · rw [hperm.length_eq, List.length_cons]
    by_cases hlen : (wrongPool words q.correct).length < 3
    · rw [hsmall hlen]
      rfl
    · obtain ⟨g2, rfl⟩ := hbig (Nat.not_lt.mp hlen)
      rw [randSample_length, Nat.min_eq_left (Nat.not_lt.mp hlen)]
  · intro hlen
    rw [hsmall hlen] at hperm
    exact hperm

theorem C7_witness :
    (⟨mkW "e1" "A", "A", ["A", "गलत", "अनुवाद", "शब्द"]⟩ : QuizQuestion).options.Perm
      ("A" :: quizFillers) :=
  (C7_filler_padding oneDistractorWords 1 [] _ (by decide)).2 (by decide)
/-- C8: `get_mastery_badge` classifies mastery into bands with inclusive lower
bounds — 💎 (MASTERED) at ≥ 0.9, 🟢 (HIGH) on [0.7, 0.9), 🟡 (MED) on
[0.5, 0.7), 🟠 (LOW) on [0.3, 0.5), 🔴 (NONE) below 0.3 — and the boundary
values 0.9, 0.7, 0.5, 0.3, 0.0 land in MASTERED, HIGH, MED, LOW, NONE. -/
theorem C8_mastery_badge_bands :
    (∀ w : WordData,
      (w.get_mastery_badge = "💎" ↔ 0.9 ≤ w.mastery_level) ∧
      (w.get_mastery_badge = "🟢" ↔ 0.7 ≤ w.mastery_level ∧ w.mastery_level < 0.9) ∧
      (w.get_mastery_badge = "🟡" ↔ 0.5 ≤ w.mastery_level ∧ w.mastery_level < 0.7) ∧
      (w.get_mastery_badge = "🟠" ↔ 0.3 ≤ w.mastery_level ∧ w.mastery_level < 0.5) ∧
      (w.get_mastery_badge = "🔴" ↔ w.mastery_level < 0.3)) ∧
    (mkWM "w" "h" 0.9).get_mastery_badge = "💎" ∧
    (mkWM "w" "h" 0.7).get_mastery_badge = "🟢" ∧
    (mkWM "w" "h" 0.5).get_mastery_badge = "🟡" ∧
    (mkWM "w" "h" 0.3).get_mastery_badge = "🟠" ∧
    (mkWM "w" "h" 0).get_mastery_badge = "🔴" := by
  constructor
  · intro w
    unfold WordData.get_mastery_badge
    split_ifs with h1 h2 h3 h4 <;>
      refine ⟨?_, ?_, ?_, ?_, ?_⟩ <;> simp_all [not_le] <;>
        first | linarith | (intro hx; linarith)
  · refine ⟨?_, ?_, ?_, ?_, ?_⟩ <;> norm_num [WordData.get_mastery_badge, mkWM, mkW]
